import Mathlib

/-!
Verification of the VoltDB `SynchronizedThreadLock` cross-site synchronization
core (`src/ee/common/SynchronizedThreadLock.h`).

The repository provides the class declaration only; the behaviour of the
operations (`countDownGlobalTxnStartCount`, `signalLowestSiteFinished`,
`lockReplicatedResource` / `unlockReplicatedResource`, `addUndoAction`,
`isInRepTableContext`, `init`) lives in the missing
`SynchronizedThreadLock.cpp`.  Where a definition embeds that missing
behaviour it is modelled from the specification's description and marked
`Modelled from the spec:`.  The declaration surface (member names,
visibility, data vs. function, default arguments) is embedded directly from
the header, which is present in the repository.
-/

namespace VoltDB

/-! ## Declaration surface of class SynchronizedThreadLock (from the header) -/

/-- C++ member visibility, as written in the header's access-specifier
sections. -/
inductive Visibility
  | vpublic
  | vprivate
deriving DecidableEq, Repr

/-- Whether a class member is a member function or a static data member. -/
inductive MemberKind
  | memberFunction
  | memberData
deriving DecidableEq, Repr

/-- One member declaration of `class SynchronizedThreadLock`. -/
structure ClassMember where
  mname : String
  vis : Visibility
  kind : MemberKind
deriving DecidableEq, Repr

/-- The complete member list of `class SynchronizedThreadLock`, transcribed
from `SynchronizedThreadLock.h` lines 40-67 in declaration order.  Note the
second `public:` section at line 65 re-opens public access for the static
data member `s_enginesByPartitionId`. -/
def synchronizedThreadLockMembers : List ClassMember :=
  [ ⟨"create", Visibility.vpublic, MemberKind.memberFunction⟩,
    ⟨"destroy", Visibility.vpublic, MemberKind.memberFunction⟩,
    ⟨"init", Visibility.vpublic, MemberKind.memberFunction⟩,
    ⟨"countDownGlobalTxnStartCount", Visibility.vpublic, MemberKind.memberFunction⟩,
    ⟨"signalLowestSiteFinished", Visibility.vpublic, MemberKind.memberFunction⟩,
    ⟨"lockReplicatedResource", Visibility.vpublic, MemberKind.memberFunction⟩,
    ⟨"unlockReplicatedResource", Visibility.vpublic, MemberKind.memberFunction⟩,
    ⟨"addUndoAction", Visibility.vpublic, MemberKind.memberFunction⟩,
    ⟨"isInRepTableContext", Visibility.vpublic, MemberKind.memberFunction⟩,
    ⟨"s_inMpContext", Visibility.vprivate, MemberKind.memberData⟩,
    ⟨"s_sharedEngineMutex", Visibility.vprivate, MemberKind.memberData⟩,
    ⟨"s_sharedEngineCondition", Visibility.vprivate, MemberKind.memberData⟩,
    ⟨"s_wakeLowestEngineCondition", Visibility.vprivate, MemberKind.memberData⟩,
    ⟨"s_globalTxnStartCountdownLatch", Visibility.vprivate, MemberKind.memberData⟩,
    ⟨"s_SITES_PER_HOST", Visibility.vprivate, MemberKind.memberData⟩,
    ⟨"s_enginesByPartitionId", Visibility.vpublic, MemberKind.memberData⟩ ]

/-- The operations the specification's section 4 documents as the core's
entry points. -/
def sectionFourOperations : List String :=
  [ "create", "destroy", "init", "countDownGlobalTxnStartCount",
    "signalLowestSiteFinished", "lockReplicatedResource",
    "unlockReplicatedResource", "addUndoAction", "isInRepTableContext" ]

/-- The specification's encapsulation claim, read off the header: every
public member of the class is one of the section-4 operations, so no state
of the core is reachable from outside it. -/
def onlyOperationsExposed : Prop :=
  ∀ m ∈ synchronizedThreadLockMembers,
    m.vis = Visibility.vpublic → m.mname ∈ sectionFourOperations

instance : Decidable onlyOperationsExposed := by
  unfold onlyOperationsExposed
  infer_instance

/-! ## Undo routing (spec section 4.5)

`UndoAction`s and `UndoQuantumReleaseInterest`s are opaque collaborators; a
quantum is an appendable log of actions together with the list of release
interests registered on it, each of which is notified once when the quantum
is released. -/

/-- An undo quantum: an ordered log of undo actions (opaque, identified by
number) plus the release interests registered on it. -/
structure UndoQuantum where
  actions : List Nat
  interests : List Nat
deriving DecidableEq, Repr

/-- The empty quantum. -/
def emptyQuantum : UndoQuantum := ⟨[], []⟩

/-- Append an action to a quantum, registering the optional release
interest. -/
def appendAction (uq : UndoQuantum) (action : Nat) (interest : Option Nat) :
    UndoQuantum :=
  ⟨uq.actions ++ [action], uq.interests ++ interest.toList⟩

/-- Releasing a quantum notifies each registered interest exactly once; the
result is the list of notifications issued, in registration order. -/
def releaseNotifications (uq : UndoQuantum) : List Nat := uq.interests

/-- Process-wide state relevant to undo routing: the shared quantum of the
current barrier round, and the MP-context flag (`s_inMpContext`). -/
structure UndoEnv where
  shared : UndoQuantum
  inMpContext : Bool
deriving DecidableEq, Repr

/-- Modelled from the spec: `SynchronizedThreadLock::addUndoAction` (the
body is in the missing `SynchronizedThreadLock.cpp`).  Spec section 4.5:
with `replicated = false` the action is appended to the caller's site-local
quantum `uq`, with ordinary per-site semantics and no cross-site
interaction; with `replicated = true` the action is appended to the shared
quantum of the current barrier round, and only the elected lowest site's
call actually mutates the shared quantum, giving exactly one append per
logical replicated mutation; a supplied interest is registered for
exactly-once release notification; there is no side effect on the
MP-context flag.  Returns the caller's (possibly updated) local quantum and
the new process-wide state. -/
def addUndoAction (lowestSite replicated : Bool) (uq : UndoQuantum)
    (action : Nat) (interest : Option Nat) (env : UndoEnv) :
    UndoQuantum × UndoEnv :=
  if replicated then
    if lowestSite then
      (uq, ⟨appendAction env.shared action interest, env.inMpContext⟩)
    else
      (uq, env)
  else
    (appendAction uq action interest, env)

/-- The header declares `addUndoAction` with default argument
`interest = NULL`; a call omitting the interest is this call. -/
def addUndoActionDefault (lowestSite replicated : Bool) (uq : UndoQuantum)
    (action : Nat) (env : UndoEnv) : UndoQuantum × UndoEnv :=
  addUndoAction lowestSite replicated uq action none env

/-- One barrier round of replicated undo routing: every site in `flags`
(its entry saying whether it is the elected lowest site) calls
`addUndoAction` with `replicated = true`, the same logical action and the
same interest, each passing its own (empty) local quantum. -/
def roundAddReplicated (flags : List Bool) (action : Nat)
    (interest : Option Nat) (env : UndoEnv) : UndoEnv :=
  flags.foldl
    (fun e fl => (addUndoAction fl true emptyQuantum action interest e).2) env

/-! ## Engine registry (spec section 4.1)

`SharedEngineLocalsType` is `std::map<int32_t, EngineLocals>`: keys are
unique; insertion under a present key overwrites the single entry for that
key. -/

/-- A site's engine context: its partition id plus an opaque payload. -/
structure EngineLocals where
  partitionId : Int
  context : Nat
deriving DecidableEq, Repr

/-- `std::map` insertion on an association list with unique keys: replace
the entry for the key when present, otherwise add one. -/
def mapInsert (m : List (Int × EngineLocals)) (key : Int)
    (v : EngineLocals) : List (Int × EngineLocals) :=
  match m with
  | [] => [(key, v)]
  | (k0, v0) :: rest =>
      if key = k0 then (key, v) :: rest
      else (k0, v0) :: mapInsert rest key v

/-- The entries of the registry whose key is `key`. -/
def entriesFor (m : List (Int × EngineLocals)) (key : Int) :
    List (Int × EngineLocals) :=
  m.filter fun e => decide (e.1 = key)

/-- The registry half of the core's process-wide state:
`s_enginesByPartitionId` and `s_SITES_PER_HOST`. -/
structure RegistryState where
  enginesByPartitionId : List (Int × EngineLocals)
  sitesPerHost : Int
deriving DecidableEq, Repr

/-- The registry as `create()` leaves it: empty, no site count derived
yet. -/
def createdRegistry : RegistryState := ⟨[], 0⟩

/-- Modelled from the spec: `SynchronizedThreadLock::init` (the body is in
the missing `SynchronizedThreadLock.cpp`).  Spec section 4.1: registers the
calling site's context under its partition id and (re)establishes
SitesPerHost for barrier sizing. -/
def registryInit (sitesPerHost : Int) (el : EngineLocals)
    (st : RegistryState) : RegistryState :=
  ⟨mapInsert st.enginesByPartitionId el.partitionId el, sitesPerHost⟩

/-- A whole startup sequence of `init` calls applied to the freshly created
registry. -/
def applyInits (calls : List (Int × EngineLocals)) : RegistryState :=
  calls.foldl (fun st c => registryInit c.1 c.2 st) createdRegistry

/-! ## Transaction start barrier (spec sections 4.2, 4.3)

Modelled from the spec: the bodies of `countDownGlobalTxnStartCount` and
`signalLowestSiteFinished` are in the missing `SynchronizedThreadLock.cpp`.
The barrier is embedded as an interleaving transition system over the
process-wide state (`s_globalTxnStartCountdownLatch`, `s_inMpContext`) and
one program counter per site thread; every transition is one critical
section executed while holding `s_sharedEngineMutex`, so transitions are
atomic and interleave arbitrarily. -/

/-- Program counter of one site thread inside a barrier round. -/
inductive Phase
  | start
  | leaderWait
  | followerWait
  | inMp
  | done (ret : Bool)
deriving DecidableEq, Repr

/-- Process-wide barrier state for `k` sites:
`latch` is `s_globalTxnStartCountdownLatch` (an `int32_t`, hence `Int`, so
that non-negativity is a theorem and not a typing artifact), `mpFlag` is
`s_inMpContext`, and `phase i` is site `i`'s program counter. -/
structure BState (k : Nat) where
  latch : Int
  mpFlag : Bool
  phase : Fin k → Phase

/-- The state in which a round begins: the latch holds `s_SITES_PER_HOST`,
the MP-context flag is clear, and every site is about to call
`countDownGlobalTxnStartCount`. -/
def initState (k : Nat) : BState k :=
  ⟨(k : Int), false, fun _ => Phase.start⟩

/-- Number of sites that have already arrived at the barrier (decremented
the latch) in phase assignment `f`. -/
def nArr {k : Nat} (f : Fin k → Phase) : Nat :=
  (Finset.univ.filter fun i => f i ≠ Phase.start).card

/-- Modelled from the spec: one atomic step of the barrier protocol of
sections 4.2 and 4.3, for `k` sites where `lowest i` is the
`lowestSite` argument site `i` passes.

* `arriveLeaderLast` / `arriveLeaderWait`: the candidate leader's call
  decrements the latch; it proceeds into the shared window (sets
  `s_inMpContext`, returns `true`) once the countdown reaches zero, and
  otherwise waits for the last arrival.
* `arriveFollower`: a non-leader's call decrements the latch and blocks on
  the condition variable (returning `false` later).
* `leaderProceed`: the waiting leader, woken when the countdown has reached
  zero, enters the shared window and returns `true`.
* `leaderSignal`: `signalLowestSiteFinished` — under the mutex the leader
  clears the MP-context flag, resets the latch to `s_SITES_PER_HOST` and
  broadcasts to the followers.
* `followerResume`: a follower wakes, re-checks under the mutex that the
  round is complete (the latch has been reset), and returns `false`. -/
inductive Step (k : Nat) (lowest : Fin k → Bool) : BState k → BState k → Prop
  | arriveLeaderLast (i : Fin k) (s : BState k)
      (hp : s.phase i = Phase.start) (hl : lowest i = true)
      (h1 : s.latch = 1) :
      Step k lowest s
        ⟨s.latch - 1, true, Function.update s.phase i Phase.inMp⟩
  | arriveLeaderWait (i : Fin k) (s : BState k)
      (hp : s.phase i = Phase.start) (hl : lowest i = true)
      (h1 : s.latch ≠ 1) :
      Step k lowest s
        ⟨s.latch - 1, s.mpFlag, Function.update s.phase i Phase.leaderWait⟩
  | arriveFollower (i : Fin k) (s : BState k)
      (hp : s.phase i = Phase.start) (hl : lowest i = false) :
      Step k lowest s
        ⟨s.latch - 1, s.mpFlag, Function.update s.phase i Phase.followerWait⟩
  | leaderProceed (i : Fin k) (s : BState k)
      (hp : s.phase i = Phase.leaderWait) (h0 : s.latch = 0) :
      Step k lowest s
        ⟨s.latch, true, Function.update s.phase i Phase.inMp⟩
  | leaderSignal (i : Fin k) (s : BState k)
      (hp : s.phase i = Phase.inMp) :
      Step k lowest s
        ⟨(k : Int), false, Function.update s.phase i (Phase.done true)⟩
  | followerResume (i : Fin k) (s : BState k)
      (hp : s.phase i = Phase.followerWait) (hk : s.latch = (k : Int)) :
      Step k lowest s
        ⟨s.latch, s.mpFlag, Function.update s.phase i (Phase.done false)⟩

/-- States reachable from the start of a round by interleaved atomic
steps. -/
inductive Reachable (k : Nat) (lowest : Fin k → Bool) : BState k → Prop
  | init : Reachable k lowest (initState k)
  | step {s t : BState k} :
      Reachable k lowest s → Step k lowest s t → Reachable k lowest t

/-- `SynchronizedThreadLock::isInRepTableContext`: a read of
`s_inMpContext`. -/
def isInRepTableContext {k : Nat} (s : BState k) : Bool := s.mpFlag

/-- All sites re-entering the barrier for the next round: program counters
return to `start`, process-wide state is carried over unchanged (the
barrier has no explicit reset call). -/
def reenter {k : Nat} (s : BState k) : BState k :=
  ⟨s.latch, s.mpFlag, fun _ => Phase.start⟩

/-! ## Replicated-resource lock (spec section 4.4)

Modelled from the spec: the bodies of `lockReplicatedResource` and
`unlockReplicatedResource` are in the missing `SynchronizedThreadLock.cpp`.
The lock is a plain mutex, independent of the barrier mutex; the guarded
section of the specification's section-8 scenario (read a shared counter,
then write it incremented — two separate steps, so that mutual exclusion is
what rules out lost updates) is embedded as an interleaving transition
system. -/

/-- Program counter of one thread in the lock scenario. -/
inductive LPhase
  | start
  | haveLock
  | haveRead (tmp : Nat)
  | haveWritten
  | done
deriving DecidableEq, Repr

/-- Whether a thread is inside the guarded section (between successful
`lockReplicatedResource` and `unlockReplicatedResource`). -/
def inCrit : LPhase → Bool
  | LPhase.haveLock => true
  | LPhase.haveRead _ => true
  | LPhase.haveWritten => true
  | _ => false

/-- State of the lock scenario with `n` threads: the lock's current holder
(none when free), the shared counter, and each thread's program counter. -/
structure LockState (n : Nat) where
  holder : Option (Fin n)
  counter : Nat
  phase : Fin n → LPhase

/-- Initial state: lock free, counter zero, every thread about to call
`lockReplicatedResource`. -/
def lockInit (n : Nat) : LockState n :=
  ⟨none, 0, fun _ => LPhase.start⟩

/-- Modelled from the spec: one atomic step of the lock scenario.
`acquire` is `lockReplicatedResource` — it completes only when the lock is
free (a contending caller blocks); `release` is
`unlockReplicatedResource`.  `readCounter` and `writeCounter` are the two
halves of the guarded increment and carry no guard of their own: that the
lock protects them is what is proved, not assumed. -/
inductive LStep (n : Nat) : LockState n → LockState n → Prop
  | acquire (i : Fin n) (s : LockState n)
      (hp : s.phase i = LPhase.start) (hfree : s.holder = none) :
      LStep n s ⟨some i, s.counter, Function.update s.phase i LPhase.haveLock⟩
  | readCounter (i : Fin n) (s : LockState n)
      (hp : s.phase i = LPhase.haveLock) :
      LStep n s
        ⟨s.holder, s.counter,
          Function.update s.phase i (LPhase.haveRead s.counter)⟩
  | writeCounter (i : Fin n) (s : LockState n) (t : Nat)
      (hp : s.phase i = LPhase.haveRead t) :
      LStep n s ⟨s.holder, t + 1, Function.update s.phase i LPhase.haveWritten⟩
  | release (i : Fin n) (s : LockState n)
      (hp : s.phase i = LPhase.haveWritten) :
      LStep n s ⟨none, s.counter, Function.update s.phase i LPhase.done⟩

/-- States reachable in the lock scenario. -/
inductive LReachable (n : Nat) : LockState n → Prop
  | init : LReachable n (lockInit n)
  | step {s t : LockState n} :
      LReachable n s → LStep n s t → LReachable n t

/-! ## Counting helpers -/

/-- Updating `f` at a point where a decidable predicate `p` turns from
false to true grows the count of points satisfying `p` by one. -/
lemma card_filter_update_true {ι β : Type} [Fintype ι] [DecidableEq ι]
    (f : ι → β) (i : ι) (v : β) (p : β → Prop) [DecidablePred p]
    (hold : ¬ p (f i)) (hnew : p v) :
    (Finset.univ.filter fun j => p (Function.update f i v j)).card
      = (Finset.univ.filter fun j => p (f j)).card + 1 := by
  have hset : (Finset.univ.filter fun j => p (Function.update f i v j))
      = insert i (Finset.univ.filter fun j => p (f j)) := by
    ext j
    by_cases hj : j = i
    · subst hj
      simp [Function.update_same, hnew]
    · simp [Function.update_noteq hj, hj]
  rw [hset, Finset.card_insert_of_not_mem (by simp [hold])]

/-- Updating `f` at a point without changing whether the predicate holds
leaves the count unchanged. -/
lemma card_filter_update_iff {ι β : Type} [Fintype ι] [DecidableEq ι]
    (f : ι → β) (i : ι) (v : β) (p : β → Prop) [DecidablePred p]
    (hiff : p (f i) ↔ p v) :
    (Finset.univ.filter fun j => p (Function.update f i v j)).card
      = (Finset.univ.filter fun j => p (f j)).card := by
  have hset : (Finset.univ.filter fun j => p (Function.update f i v j))
      = (Finset.univ.filter fun j => p (f j)) := by
    ext j
    by_cases hj : j = i
    · subst hj
      simp only [Finset.mem_filter, Finset.mem_univ, true_and,
        Function.update_same]
      exact hiff.symm
    · simp [Function.update_noteq hj]
  rw [hset]

/-- A site arriving (leaving `Phase.start`) increments the arrival
count. -/
lemma nArr_update_arrive {k : Nat} (f : Fin k → Phase) (i : Fin k)
    (p : Phase) (hf : f i = Phase.start) (hp : p ≠ Phase.start) :
    nArr (Function.update f i p) = nArr f + 1 :=
  card_filter_update_true f i p (fun q => q ≠ Phase.start) (by simp [hf]) hp

/-- A phase change of a site that has already arrived, to another
non-`start` phase, leaves the arrival count unchanged. -/
lemma nArr_update_stay {k : Nat} (f : Fin k → Phase) (i : Fin k)
    (p : Phase) (hf : f i ≠ Phase.start) (hp : p ≠ Phase.start) :
    nArr (Function.update f i p) = nArr f :=
  card_filter_update_iff f i p (fun q => q ≠ Phase.start)
    (by simp [hf, hp])

/-- At most all `k` sites have arrived. -/
lemma nArr_le {k : Nat} (f : Fin k → Phase) : nArr f ≤ k := by
  have h := Finset.card_filter_le Finset.univ
    (fun i => f i ≠ Phase.start)
  simpa using h

/-- If all `k` sites have arrived then no site is still in
`Phase.start`. -/
lemma arrived_all {k : Nat} (f : Fin k → Phase) (h : nArr f = k) :
    ∀ j, f j ≠ Phase.start := by
  have hc : (Finset.univ.filter fun i => f i ≠ Phase.start)
      = Finset.univ := by
    apply Finset.eq_of_subset_of_card_le (Finset.filter_subset _ _)
    have : (Finset.univ.filter fun i => f i ≠ Phase.start).card = k := h
    simp [this]
  intro j
  have hj : j ∈ Finset.univ.filter fun i => f i ≠ Phase.start := by
    rw [hc]; exact Finset.mem_univ j
  exact (Finset.mem_filter.mp hj).2

/-- If `k - 1` sites have arrived and site `i0` has not, every other site
has. -/
lemma arrived_others {k : Nat} (f : Fin k → Phase) (i0 : Fin k)
    (h0 : f i0 = Phase.start) (h : nArr f = k - 1) :
    ∀ j, j ≠ i0 → f j ≠ Phase.start := by
  have hsub : (Finset.univ.filter fun i => f i ≠ Phase.start)
      ⊆ Finset.univ.erase i0 := by
    intro j hj
    rcases Finset.mem_filter.mp hj with ⟨-, hne⟩
    refine Finset.mem_erase.mpr ⟨?_, Finset.mem_univ j⟩
    rintro rfl
    exact hne h0
  have hcard : (Finset.univ.erase i0).card
      ≤ (Finset.univ.filter fun i => f i ≠ Phase.start).card := by
    rw [Finset.card_erase_of_mem (Finset.mem_univ i0)]
    have : (Finset.univ.filter fun i => f i ≠ Phase.start).card = k - 1 := h
    simp [this]
  have heq := Finset.eq_of_subset_of_card_le hsub hcard
  intro j hji
  have hj : j ∈ Finset.univ.filter fun i => f i ≠ Phase.start := by
    rw [heq]
    exact Finset.mem_erase.mpr ⟨hji, Finset.mem_univ j⟩
  exact (Finset.mem_filter.mp hj).2

/-! ## The barrier invariant -/

/-- The inductive invariant of a barrier round whose unique candidate
leader is `i0` (the one site passing `lowestSite = true`).

* `leaderPh` / `followerPh`: the phases each site can occupy (invariant I1:
  only `i0` ever reaches the shared window or returns `true`).
* `flagIff`: `s_inMpContext` is set exactly while the leader is inside the
  shared window.
* `latchPre` / `latchPost`: before the completion signal the latch equals
  `SitesPerHost` minus the number of arrived sites; after it, the latch has
  been reset to `SitesPerHost` (invariant I2 follows).
* `allArrived`: the leader enters the shared window only after every site
  has arrived. -/
structure BInv (k : Nat) (i0 : Fin k) (s : BState k) : Prop where
  leaderPh : s.phase i0 = Phase.start ∨ s.phase i0 = Phase.leaderWait ∨
      s.phase i0 = Phase.inMp ∨ s.phase i0 = Phase.done true
  followerPh : ∀ i, i ≠ i0 → s.phase i = Phase.start ∨
      s.phase i = Phase.followerWait ∨ s.phase i = Phase.done false
  flagIff : s.mpFlag = true ↔ s.phase i0 = Phase.inMp
  latchPre : s.phase i0 ≠ Phase.done true →
      s.latch = (k : Int) - (nArr s.phase : Int)
  latchPost : s.phase i0 = Phase.done true → s.latch = (k : Int)
  allArrived : (s.phase i0 = Phase.inMp ∨ s.phase i0 = Phase.done true) →
      ∀ i, s.phase i ≠ Phase.start

/-- The barrier invariant holds in the state in which a round begins. -/
lemma binv_init {k : Nat} (i0 : Fin k) : BInv k i0 (initState k) := by
  refine ⟨Or.inl rfl, fun i _ => Or.inl rfl, by simp [initState],
    ?_, ?_, ?_⟩
  · intro _
    have hz : nArr ((initState k).phase) = 0 := by
      unfold nArr initState
      simp
    show (k : Int) = (k : Int) - (nArr (initState k).phase : Int)
    rw [hz]
    simp
  · intro h
    simp [initState] at h
  · intro h
    simp [initState] at h

/-- The barrier invariant is preserved by every atomic step of a round in
which exactly one site passes `lowestSite = true`. -/
lemma binv_step {k : Nat} {lowest : Fin k → Bool} {i0 : Fin k}
    (hl : ∀ i, lowest i = true ↔ i = i0) {s t : BState k}
    (ih : BInv k i0 s) (hstep : Step k lowest s t) : BInv k i0 t := by
  obtain ⟨lph, fph, fl, lpre, lpost, aall⟩ := ih
  cases hstep with
  | arriveLeaderLast i u hp hlow h1 =>
      have hi : i = i0 := (hl i).mp hlow
      subst hi
      have hstart : s.phase i ≠ Phase.done true := by rw [hp]; simp
      have hpre := lpre hstart
      have hn1 : nArr (Function.update s.phase i Phase.inMp)
          = nArr s.phase + 1 := nArr_update_arrive _ _ _ hp (by simp)
      refine ⟨?_, ?_, ?_, ?_, ?_, ?_⟩
      · dsimp only
        simp [Function.update_same]
      · intro j hj
        dsimp only
        rw [Function.update_noteq hj]
        exact fph j hj
      · dsimp only
        simp [Function.update_same]
      · intro _
        dsimp only
        rw [hn1, hpre]
        push_cast
        ring
      · intro h
        dsimp only at h
        simp [Function.update_same] at h
      · intro _ j
        dsimp only
        by_cases hj : j = i
        · subst hj
          simp [Function.update_same]
        · rw [Function.update_noteq hj]
          have hle := nArr_le s.phase
          have hnk : nArr s.phase = k - 1 := by omega
          exact arrived_others s.phase i hp hnk j hj
  | arriveLeaderWait i u hp hlow h1 =>
      have hi : i = i0 := (hl i).mp hlow
      subst hi
      have hstart : s.phase i ≠ Phase.done true := by rw [hp]; simp
      have hpre := lpre hstart
      have hmf : s.mpFlag = false := by
        rw [hp] at fl
        simp at fl
        exact fl
      have hn1 : nArr (Function.update s.phase i Phase.leaderWait)
          = nArr s.phase + 1 := nArr_update_arrive _ _ _ hp (by simp)
      refine ⟨?_, ?_, ?_, ?_, ?_, ?_⟩
      · dsimp only
        simp [Function.update_same]
      · intro j hj
        dsimp only
        rw [Function.update_noteq hj]
        exact fph j hj
      · dsimp only
        simp [Function.update_same, hmf]
      · intro _
        dsimp only
        rw [hn1, hpre]
        push_cast
        ring
      · intro h
        dsimp only at h
        simp [Function.update_same] at h
      · intro h
        dsimp only at h
        simp [Function.update_same] at h
  | arriveFollower i u hp hlow =>
      have hi : i ≠ i0 := by
        intro h
        rw [(hl i).mpr h] at hlow
        exact Bool.noConfusion hlow
      have hnds : ¬ (s.phase i0 = Phase.inMp ∨
          s.phase i0 = Phase.done true) := fun h => (aall h i) hp
      have hstart : s.phase i0 ≠ Phase.done true :=
        fun h => hnds (Or.inr h)
      have hpre := lpre hstart
      have hn1 : nArr (Function.update s.phase i Phase.followerWait)
          = nArr s.phase + 1 := nArr_update_arrive _ _ _ hp (by simp)
      refine ⟨?_, ?_, ?_, ?_, ?_, ?_⟩
      · dsimp only
        rw [Function.update_noteq (Ne.symm hi)]
        exact lph
      · intro j hj
        dsimp only
        by_cases hji : j = i
        · subst hji
          rw [Function.update_same]
          exact Or.inr (Or.inl rfl)
        · rw [Function.update_noteq hji]
          exact fph j hj
      · dsimp only
        rw [Function.update_noteq (Ne.symm hi)]
        exact fl
      · intro _
        dsimp only
        rw [hn1, hpre]
        push_cast
        ring
      · intro h
        dsimp only at h
        rw [Function.update_noteq (Ne.symm hi)] at h
        exact absurd h hstart
      · intro h
        dsimp only at h
        rw [Function.update_noteq (Ne.symm hi)] at h
        exact (hnds h).elim
  | leaderProceed i u hp h0 =>
      have hi : i = i0 := by
        by_contra hne
        rcases fph i hne with h | h | h <;> rw [hp] at h <;> simp at h
      subst hi
      have hstart : s.phase i ≠ Phase.done true := by rw [hp]; simp
      have hpre := lpre hstart
      have hle := nArr_le s.phase
      have hnk : nArr s.phase = k := by omega
      have hall := arrived_all s.phase hnk
      have hns : nArr (Function.update s.phase i Phase.inMp)
          = nArr s.phase :=
        nArr_update_stay _ _ _ (by rw [hp]; simp) (by simp)
      refine ⟨?_, ?_, ?_, ?_, ?_, ?_⟩
      · dsimp only
        simp [Function.update_same]
      · intro j hj
        dsimp only
        rw [Function.update_noteq hj]
        exact fph j hj
      · dsimp only
        simp [Function.update_same]
      · intro _
        dsimp only
        rw [hns, hpre]
      · intro h
        dsimp only at h
        simp [Function.update_same] at h
      · intro _ j
        dsimp only
        by_cases hj : j = i
        · subst hj
          simp [Function.update_same]
        · rw [Function.update_noteq hj]
          exact hall j
  | leaderSignal i u hp =>
      have hi : i = i0 := by
        by_contra hne
        rcases fph i hne with h | h | h <;> rw [hp] at h <;> simp at h
      subst hi
      have hall := aall (Or.inl hp)
      refine ⟨?_, ?_, ?_, ?_, ?_, ?_⟩
      · dsimp only
        simp [Function.update_same]
      · intro j hj
        dsimp only
        rw [Function.update_noteq hj]
        exact fph j hj
      · dsimp only
        simp [Function.update_same]
      · intro h
        dsimp only at h
        simp [Function.update_same] at h
      · intro _
        rfl
      · intro _ j
        dsimp only
        by_cases hj : j = i
        · subst hj
          simp [Function.update_same]
        · rw [Function.update_noteq hj]
          exact hall j
  | followerResume i u hp hk =>
      have hi : i ≠ i0 := by
        intro h
        rw [h] at hp
        rcases lph with hx | hx | hx | hx <;> rw [hp] at hx <;>
          simp at hx
      have hdone : s.phase i0 = Phase.done true := by
        by_contra hnd
        have hpre := lpre hnd
        have hge1 : 1 ≤ nArr s.phase := by
          have hmem : i ∈ Finset.univ.filter
              (fun j => s.phase j ≠ Phase.start) :=
            Finset.mem_filter.mpr
              ⟨Finset.mem_univ i, by rw [hp]; simp⟩
          exact Finset.card_pos.mpr ⟨i, hmem⟩
        omega
      have hall := aall (Or.inr hdone)
      refine ⟨?_, ?_, ?_, ?_, ?_, ?_⟩
      · dsimp only
        rw [Function.update_noteq (Ne.symm hi)]
        exact lph
      · intro j hj
        dsimp only
        by_cases hji : j = i
        · subst hji
          rw [Function.update_same]
          exact Or.inr (Or.inr rfl)
        · rw [Function.update_noteq hji]
          exact fph j hj
      · dsimp only
        rw [Function.update_noteq (Ne.symm hi)]
        exact fl
      · intro h
        dsimp only at h
        rw [Function.update_noteq (Ne.symm hi)] at h
        exact absurd hdone h
      · intro _
        exact hk
      · intro _ j
        dsimp only
        by_cases hj : j = i
        · subst hj
          simp [Function.update_same]
        · rw [Function.update_noteq hj]
          exact hall j

/-- The barrier invariant holds in every reachable state of a round in
which exactly one site passes `lowestSite = true`. -/
lemma barrier_inv {k : Nat} {lowest : Fin k → Bool} {i0 : Fin k}
    (hl : ∀ i, lowest i = true ↔ i = i0) {s : BState k}
    (hr : Reachable k lowest s) : BInv k i0 s := by
  induction hr with
  | init => exact binv_init i0
  | step hr hstep ih => exact binv_step hl ih hstep

/-! ## The lock invariant -/

/-- The inductive invariant of the replicated-resource lock scenario.

* `holderCrit`: any thread inside the guarded section is the lock's
  current holder — mutual exclusion (invariant I5) follows.
* `readVal`: the value a thread read under the lock is still the shared
  counter's value (nobody else can have written meanwhile).
* `counterEq`: the counter equals the number of threads whose increment
  has been applied — no update is ever lost. -/
structure LInv (n : Nat) (s : LockState n) : Prop where
  holderCrit : ∀ i, inCrit (s.phase i) = true → s.holder = some i
  readVal : ∀ i t, s.phase i = LPhase.haveRead t → t = s.counter
  counterEq : s.counter = (Finset.univ.filter fun i =>
      s.phase i = LPhase.haveWritten ∨ s.phase i = LPhase.done).card

/-- The lock invariant holds initially. -/
lemma linv_init (n : Nat) : LInv n (lockInit n) := by
  refine ⟨?_, ?_, ?_⟩
  · intro i hi
    simp [lockInit, inCrit] at hi
  · intro i t hi
    simp [lockInit] at hi
  · unfold lockInit
    simp

/-- The lock invariant is preserved by every atomic step of the
scenario. -/
lemma linv_step {n : Nat} {s t : LockState n} (ih : LInv n s)
    (hstep : LStep n s t) : LInv n t := by
  obtain ⟨hc, hrd, hcnt⟩ := ih
  cases hstep with
  | acquire i u hp hfree =>
      refine ⟨?_, ?_, ?_⟩
      · intro j hj
        dsimp only at hj ⊢
        by_cases hji : j = i
        · subst hji
          rfl
        · rw [Function.update_noteq hji] at hj
          have hh := hc j hj
          rw [hfree] at hh
          exact Option.noConfusion hh
      · intro j tv hj
        dsimp only at hj ⊢
        by_cases hji : j = i
        · subst hji
          rw [Function.update_same] at hj
          exact LPhase.noConfusion hj
        · rw [Function.update_noteq hji] at hj
          have hcrit : inCrit (s.phase j) = true := by rw [hj]; rfl
          have hh := hc j hcrit
          rw [hfree] at hh
          exact Option.noConfusion hh
      · dsimp only
        have heq := card_filter_update_iff s.phase i LPhase.haveLock
          (fun q => q = LPhase.haveWritten ∨ q = LPhase.done)
          (by simp [hp])
        rw [heq]
        exact hcnt
  | readCounter i u hp =>
      have hhold := hc i (by rw [hp]; rfl)
      refine ⟨?_, ?_, ?_⟩
      · intro j hj
        dsimp only at hj ⊢
        by_cases hji : j = i
        · subst hji
          exact hhold
        · rw [Function.update_noteq hji] at hj
          exact hc j hj
      · intro j tv hj
        dsimp only at hj ⊢
        by_cases hji : j = i
        · subst hji
          rw [Function.update_same] at hj
          injection hj with hj
          exact hj.symm
        · rw [Function.update_noteq hji] at hj
          exact hrd j tv hj
      · dsimp only
        have heq := card_filter_update_iff s.phase i
          (LPhase.haveRead s.counter)
          (fun q => q = LPhase.haveWritten ∨ q = LPhase.done)
          (by simp [hp])
        rw [heq]
        exact hcnt
  | writeCounter i u tv hp =>
      have hhold := hc i (by rw [hp]; rfl)
      have htv : tv = s.counter := hrd i tv hp
      refine ⟨?_, ?_, ?_⟩
      · intro j hj
        dsimp only at hj ⊢
        by_cases hji : j = i
        · subst hji
          exact hhold
        · rw [Function.update_noteq hji] at hj
          exact hc j hj
      · intro j tv2 hj
        dsimp only at hj ⊢
        by_cases hji : j = i
        · subst hji
          rw [Function.update_same] at hj
          exact LPhase.noConfusion hj
        · rw [Function.update_noteq hji] at hj
          have hcj := hc j (by rw [hj]; rfl)
          rw [hhold] at hcj
          injection hcj with hcj
          exact absurd hcj.symm hji
      · dsimp only
        have heq := card_filter_update_true s.phase i LPhase.haveWritten
          (fun q => q = LPhase.haveWritten ∨ q = LPhase.done)
          (by simp [hp]) (by simp)
        rw [heq, ← hcnt, htv]
  | release i u hp =>
      have hhold := hc i (by rw [hp]; rfl)
      refine ⟨?_, ?_, ?_⟩
      · intro j hj
        dsimp only at hj ⊢
        by_cases hji : j = i
        · subst hji
          rw [Function.update_same] at hj
          exact Bool.noConfusion hj
        · rw [Function.update_noteq hji] at hj
          have hcj := hc j hj
          rw [hhold] at hcj
          injection hcj with hcj
          exact absurd hcj.symm hji
      · intro j tv hj
        dsimp only at hj ⊢
        by_cases hji : j = i
        · subst hji
          rw [Function.update_same] at hj
          exact LPhase.noConfusion hj
        · rw [Function.update_noteq hji] at hj
          exact hrd j tv hj
      · dsimp only
        have heq := card_filter_update_iff s.phase i LPhase.done
          (fun q => q = LPhase.haveWritten ∨ q = LPhase.done)
          (by simp [hp])
        rw [heq]
        exact hcnt

/-- The lock invariant holds in every reachable state of the scenario. -/
lemma lock_inv {n : Nat} {s : LockState n} (hr : LReachable n s) :
    LInv n s := by
  induction hr with
  | init => exact linv_init n
  | step hr hstep ih => exact linv_step ih hstep

/-! ## Barrier claims -/

/-- C1: in a barrier round with SitesPerHost = k in which every site calls
`countDownGlobalTxnStartCount` exactly once and exactly one site (`i0`)
passes `lowestSite = true`, every call that has returned returned `true`
iff its caller passed `lowestSite = true`; and once all k calls have
returned, exactly one of them returned the "proceed" decision `true`. -/
theorem barrier_exactly_one_proceeds {k : Nat} {lowest : Fin k → Bool}
    {i0 : Fin k} (hl : ∀ i, lowest i = true ↔ i = i0) {s : BState k}
    (hr : Reachable k lowest s) :
    (∀ i r, s.phase i = Phase.done r → (r = true ↔ lowest i = true)) ∧
    ((∀ i, ∃ r, s.phase i = Phase.done r) →
      ∃! i, s.phase i = Phase.done true) := by
  obtain ⟨lph, fph, fl, lpre, lpost, aall⟩ := barrier_inv hl hr
  constructor
  · intro i r hd
    by_cases hi : i = i0
    · subst hi
      have hrt : r = true := by
        rcases lph with h | h | h | h <;> rw [hd] at h <;> simp at h
        exact h
      simp [hrt, (hl i).mpr rfl]
    · have hlow : lowest i = false := by
        cases hlw : lowest i
        · rfl
        · exact absurd ((hl i).mp hlw) hi
      have hrf : r = false := by
        rcases fph i hi with h | h | h <;> rw [hd] at h <;> simp at h
        exact h
      simp [hrf, hlow]
  · intro hall
    refine ⟨i0, ?_, ?_⟩
    · obtain ⟨r, hd⟩ := hall i0
      have hrt : r = true := by
        rcases lph with h | h | h | h <;> rw [hd] at h <;> simp at h
        exact h
      rw [hrt] at hd
      exact hd
    · intro j hj
      by_contra hne
      rcases fph j hne with h | h | h <;> rw [hj] at h <;> simp at h

/-- C2: the global countdown latch is never negative in any reachable
state, and once the round has completed (the leader has signalled), the
latch has been reset to SitesPerHost and the state all sites re-enter for
the next round is exactly the initial barrier state — the barrier is
reusable without any explicit reset call. -/
theorem countdown_nonneg_and_reset {k : Nat} {lowest : Fin k → Bool}
    {i0 : Fin k} (hl : ∀ i, lowest i = true ↔ i = i0) {s : BState k}
    (hr : Reachable k lowest s) :
    0 ≤ s.latch ∧
    (s.phase i0 = Phase.done true →
      s.latch = (k : Int) ∧ reenter s = initState k) := by
  have inv := barrier_inv hl hr
  constructor
  · by_cases hd : s.phase i0 = Phase.done true
    · rw [inv.latchPost hd]
      exact_mod_cast Nat.zero_le k
    · have hpre := inv.latchPre hd
      have hle := nArr_le s.phase
      omega
  · intro hd
    have hlatch := inv.latchPost hd
    have hmf : s.mpFlag = false := by
      have hfl := inv.flagIff
      rw [hd] at hfl
      simp at hfl
      exact hfl
    refine ⟨hlatch, ?_⟩
    unfold reenter initState
    rw [hlatch, hmf]

/-- C3: `signalLowestSiteFinished`, available to the leader inside its
shared window, moves the system (in one atomic step under the shared
mutex) to a state in which the MP-context flag is clear and the latch is
reset to SitesPerHost; and any follower whose wake condition holds (it is
parked and the latch has been reset) observes the MP-context flag already
clear. -/
theorem signal_clears_flag_and_resets {k : Nat} {lowest : Fin k → Bool}
    {i0 : Fin k} (hl : ∀ i, lowest i = true ↔ i = i0) {s : BState k}
    (hr : Reachable k lowest s) :
    (s.phase i0 = Phase.inMp →
      Step k lowest s
        ⟨(k : Int), false, Function.update s.phase i0 (Phase.done true)⟩) ∧
    (∀ i, s.phase i = Phase.followerWait → s.latch = (k : Int) →
      s.mpFlag = false) := by
  have inv := barrier_inv hl hr
  constructor
  · intro hin
    exact Step.leaderSignal i0 s hin
  · intro i hw hk
    have hi : i ≠ i0 := by
      intro h
      rw [h] at hw
      rcases inv.leaderPh with hx | hx | hx | hx <;> rw [hw] at hx <;>
        simp at hx
    have hdone : s.phase i0 = Phase.done true := by
      by_contra hnd
      have hpre := inv.latchPre hnd
      have hge1 : 1 ≤ nArr s.phase := by
        have hmem : i ∈ Finset.univ.filter
            (fun j => s.phase j ≠ Phase.start) :=
          Finset.mem_filter.mpr ⟨Finset.mem_univ i, by rw [hw]; simp⟩
        exact Finset.card_pos.mpr ⟨i, hmem⟩
      omega
    have hfl := inv.flagIff
    rw [hdone] at hfl
    simp at hfl
    exact hfl

/-- C5: `isInRepTableContext` reads `true` exactly while the round's
elected leader is inside its shared-execution window (between its election
— entering `Phase.inMp` — and its completion signal), in every reachable
state and hence for every observer. -/
theorem inRepTableContext_iff_shared_window {k : Nat}
    {lowest : Fin k → Bool} {i0 : Fin k}
    (hl : ∀ i, lowest i = true ↔ i = i0) {s : BState k}
    (hr : Reachable k lowest s) :
    isInRepTableContext s = true ↔ s.phase i0 = Phase.inMp :=
  (barrier_inv hl hr).flagIff

/-! ## A concrete two-site round (used by the barrier witnesses) -/

/-- Two sites; partition 0 passes `lowestSite = true`. -/
def demoLowest : Fin 2 → Bool := fun i => decide (i = (0 : Fin 2))

lemma demo_hl : ∀ i, demoLowest i = true ↔ i = (0 : Fin 2) := by decide

/-- Round start. -/
def demoS0 : BState 2 := initState 2

/-- Site 1 (a follower) arrives and parks. -/
def demoS1 : BState 2 :=
  ⟨demoS0.latch - 1, demoS0.mpFlag,
    Function.update demoS0.phase 1 Phase.followerWait⟩

/-- Site 0 (the candidate leader) arrives last and proceeds. -/
def demoS2 : BState 2 :=
  ⟨demoS1.latch - 1, true, Function.update demoS1.phase 0 Phase.inMp⟩

/-- The leader signals completion. -/
def demoS3 : BState 2 :=
  ⟨((2 : Nat) : Int), false,
    Function.update demoS2.phase 0 (Phase.done true)⟩

/-- The follower wakes, re-checks, and returns `false`. -/
def demoS4 : BState 2 :=
  ⟨demoS3.latch, demoS3.mpFlag,
    Function.update demoS3.phase 1 (Phase.done false)⟩

lemma demo_reach1 : Reachable 2 demoLowest demoS1 :=
  Reachable.step Reachable.init
    (Step.arriveFollower 1 demoS0 (by decide) (by decide))

lemma demo_reach2 : Reachable 2 demoLowest demoS2 :=
  Reachable.step demo_reach1
    (Step.arriveLeaderLast 0 demoS1 (by decide) (by decide) (by decide))

lemma demo_reach3 : Reachable 2 demoLowest demoS3 :=
  Reachable.step demo_reach2
    (Step.leaderSignal 0 demoS2 (by decide))

lemma demo_reach4 : Reachable 2 demoLowest demoS4 :=
  Reachable.step demo_reach3
    (Step.followerResume 1 demoS3 (by decide) (by decide))

/-- C1 witness: in the completed concrete two-site round, exactly one call
returned `true`. -/
theorem barrier_exactly_one_proceeds_witness :
    ∃! i : Fin 2, demoS4.phase i = Phase.done true :=
  (barrier_exactly_one_proceeds demo_hl demo_reach4).2 (by decide)

/-- C2 witness: in the completed concrete round the latch is non-negative,
equals SitesPerHost = 2 again, and re-entering yields the initial state. -/
theorem countdown_nonneg_and_reset_witness :
    0 ≤ demoS4.latch ∧
    (demoS4.latch = ((2 : Nat) : Int) ∧ reenter demoS4 = initState 2) :=
  ⟨(countdown_nonneg_and_reset demo_hl demo_reach4).1,
   (countdown_nonneg_and_reset demo_hl demo_reach4).2 (by decide)⟩

/-- C3 witness: from the concrete state with the leader in its shared
window, the completion signal steps to the reset state; and the woken
follower observes the flag clear. -/
theorem signal_clears_flag_and_resets_witness :
    Step 2 demoLowest demoS2
      ⟨((2 : Nat) : Int), false,
        Function.update demoS2.phase 0 (Phase.done true)⟩ ∧
    demoS3.mpFlag = false :=
  ⟨(signal_clears_flag_and_resets demo_hl demo_reach2).1 (by decide),
   (signal_clears_flag_and_resets demo_hl demo_reach3).2 1 (by decide)
     (by decide)⟩

/-- C5 witness: with the concrete leader inside its shared window, the
context flag reads `true` exactly then. -/
theorem inRepTableContext_iff_shared_window_witness :
    isInRepTableContext demoS2 = true ↔ demoS2.phase 0 = Phase.inMp :=
  inRepTableContext_iff_shared_window demo_hl demo_reach2

/-! ## Replicated-resource lock claims -/

/-- C6: the replicated-resource lock is mutually exclusive — in no
reachable state of the scenario are two distinct threads inside the
guarded section (a second caller of `lockReplicatedResource` stays blocked
until `unlockReplicatedResource`, which is the `acquire` guard) — and, as
the observable consequence, once every thread has run its guarded
increment the shared counter equals the number of threads, with no lost
update from interleaved guarded sections. -/
theorem lock_mutual_exclusion_and_counter {n : Nat} {s : LockState n}
    (hr : LReachable n s) :
    (∀ i j, inCrit (s.phase i) = true → inCrit (s.phase j) = true →
      i = j) ∧
    ((∀ i, s.phase i = LPhase.done) → s.counter = n) := by
  obtain ⟨hc, hrd, hcnt⟩ := lock_inv hr
  constructor
  · intro i j hi hj
    have h1 := hc i hi
    have h2 := hc j hj
    rw [h1] at h2
    exact Option.some.inj h2
  · intro hall
    rw [hcnt]
    have hfull : (Finset.univ.filter fun i =>
        s.phase i = LPhase.haveWritten ∨ s.phase i = LPhase.done)
        = Finset.univ :=
      Finset.filter_eq_self.mpr fun i _ => Or.inr (hall i)
    rw [hfull]
    simp

/-! ## A concrete two-thread lock race (used by the C6 witness) -/

/-- Thread 0 acquires the free lock. -/
def lkS1 : LockState 2 :=
  ⟨some 0, (lockInit 2).counter,
    Function.update (lockInit 2).phase 0 LPhase.haveLock⟩

/-- Thread 0 reads the counter under the lock. -/
def lkS2 : LockState 2 :=
  ⟨lkS1.holder, lkS1.counter,
    Function.update lkS1.phase 0 (LPhase.haveRead lkS1.counter)⟩

/-- Thread 0 writes the incremented value. -/
def lkS3 : LockState 2 :=
  ⟨lkS2.holder, 0 + 1, Function.update lkS2.phase 0 LPhase.haveWritten⟩

/-- Thread 0 releases the lock. -/
def lkS4 : LockState 2 :=
  ⟨none, lkS3.counter, Function.update lkS3.phase 0 LPhase.done⟩

/-- Thread 1, blocked while thread 0 held the lock, now acquires it. -/
def lkS5 : LockState 2 :=
  ⟨some 1, lkS4.counter, Function.update lkS4.phase 1 LPhase.haveLock⟩

/-- Thread 1 reads the counter under the lock. -/
def lkS6 : LockState 2 :=
  ⟨lkS5.holder, lkS5.counter,
    Function.update lkS5.phase 1 (LPhase.haveRead lkS5.counter)⟩

/-- Thread 1 writes the incremented value. -/
def lkS7 : LockState 2 :=
  ⟨lkS6.holder, 1 + 1, Function.update lkS6.phase 1 LPhase.haveWritten⟩

/-- Thread 1 releases the lock. -/
def lkS8 : LockState 2 :=
  ⟨none, lkS7.counter, Function.update lkS7.phase 1 LPhase.done⟩

lemma lk_reach8 : LReachable 2 lkS8 :=
  LReachable.step
    (LReachable.step
      (LReachable.step
        (LReachable.step
          (LReachable.step
            (LReachable.step
              (LReachable.step
                (LReachable.step LReachable.init
                  (LStep.acquire 0 (lockInit 2) (by decide) (by decide)))
                (LStep.readCounter 0 lkS1 (by decide)))
              (LStep.writeCounter 0 lkS2 0 (by decide)))
            (LStep.release 0 lkS3 (by decide)))
          (LStep.acquire 1 lkS4 (by decide) (by decide)))
        (LStep.readCounter 1 lkS5 (by decide)))
      (LStep.writeCounter 1 lkS6 1 (by decide)))
    (LStep.release 1 lkS7 (by decide))

/-- C6 witness: after both threads of the concrete race have run their
guarded increments in turn, the counter is exactly 2. -/
theorem lock_mutual_exclusion_and_counter_witness : lkS8.counter = 2 :=
  (lock_mutual_exclusion_and_counter lk_reach8).2 (by decide)

/-! ## Undo routing claims -/

/-- A round fold in which no caller is the lowest site leaves the
process-wide state unchanged. -/
lemma roundAddReplicated_no_lowest (flags : List Bool) (action : Nat)
    (interest : Option Nat) (env : UndoEnv)
    (h : flags.count true = 0) :
    roundAddReplicated flags action interest env = env := by
  induction flags generalizing env with
  | nil => rfl
  | cons b rest ih =>
      cases b
      · have hrest : rest.count true = 0 := by
          simpa [List.count_cons] using h
        show roundAddReplicated rest action interest
          (addUndoAction false true emptyQuantum action interest env).2 = env
        exact ih _ hrest
      · simp [List.count_cons] at h

/-- A round fold in which exactly one caller is the lowest site performs
exactly the leader's append on the shared quantum. -/
lemma roundAddReplicated_one_lowest (flags : List Bool) (action : Nat)
    (interest : Option Nat) (env : UndoEnv)
    (h : flags.count true = 1) :
    roundAddReplicated flags action interest env
      = ⟨appendAction env.shared action interest, env.inMpContext⟩ := by
  induction flags generalizing env with
  | nil => simp [List.count_nil] at h
  | cons b rest ih =>
      cases b
      · have hrest : rest.count true = 1 := by
          simpa [List.count_cons] using h
        show roundAddReplicated rest action interest
          (addUndoAction false true emptyQuantum action interest env).2
          = ⟨appendAction env.shared action interest, env.inMpContext⟩
        exact ih _ hrest
      · have hrest : rest.count true = 0 := by
          simpa [List.count_cons] using h
        show roundAddReplicated rest action interest
          (addUndoAction true true emptyQuantum action interest env).2
          = ⟨appendAction env.shared action interest, env.inMpContext⟩
        exact roundAddReplicated_no_lowest rest action interest _ hrest

/-- C4: when all k sites of a round call
`addUndoAction(replicated = true, …)` for the same logical mutation, with
exactly one of them the elected lowest site, then — for any number of
sites k and any order of the calls (the fold ranges over an arbitrary flag
list with one `true`) and any starting MP-context flag — the round's fresh
shared quantum ends holding exactly one appended `UndoAction`
(`actions = [action]`), the release interest is registered on it exactly
once (`interests = [intr]`), and releasing the shared quantum therefore
notifies the registered interest exactly once. -/
theorem replicated_undo_exactly_once (flags : List Bool)
    (action intr : Nat) (mp : Bool) (h : flags.count true = 1) :
    (roundAddReplicated flags action (some intr)
        ⟨emptyQuantum, mp⟩).shared.actions = [action] ∧
    (roundAddReplicated flags action (some intr)
        ⟨emptyQuantum, mp⟩).shared.interests = [intr] ∧
    (releaseNotifications (roundAddReplicated flags action (some intr)
        ⟨emptyQuantum, mp⟩).shared).count intr = 1 := by
  rw [roundAddReplicated_one_lowest flags action (some intr)
    ⟨emptyQuantum, mp⟩ h]
  refine ⟨rfl, rfl, ?_⟩
  simp [releaseNotifications, appendAction, emptyQuantum]

/-- C4 witness: a three-site round (sites 0,1,2 with site 1 the lowest)
appends once, registers the interest once, and notifies it once. -/
theorem replicated_undo_exactly_once_witness :
    (roundAddReplicated [false, true, false] 7 (some 9)
        ⟨emptyQuantum, false⟩).shared.actions = [7] ∧
    (roundAddReplicated [false, true, false] 7 (some 9)
        ⟨emptyQuantum, false⟩).shared.interests = [9] ∧
    (releaseNotifications (roundAddReplicated [false, true, false] 7
        (some 9) ⟨emptyQuantum, false⟩).shared).count 9 = 1 :=
  replicated_undo_exactly_once [false, true, false] 7 9 false (by decide)

/-- C8: `addUndoAction(replicated = false, …)` appends the action to the
given site-local quantum and registers the optional interest there, with
no other side effect (the process-wide state is returned unchanged); and
no `addUndoAction` call — with either value of `replicated` — changes the
MP-context flag. -/
theorem addUndoAction_local_frame (l : Bool) (uq : UndoQuantum) (a : Nat)
    (i : Option Nat) (env : UndoEnv) :
    (addUndoAction l false uq a i env).1.actions = uq.actions ++ [a] ∧
    (addUndoAction l false uq a i env).1.interests
      = uq.interests ++ i.toList ∧
    (addUndoAction l false uq a i env).2 = env ∧
    (∀ r : Bool,
      (addUndoAction l r uq a i env).2.inMpContext = env.inMpContext) := by
  refine ⟨rfl, rfl, rfl, ?_⟩
  intro r
  cases r
  · rfl
  · cases l <;> rfl

/-- C9: a call to `addUndoAction` that omits the `interest` argument
behaves as a call with `interest = NULL` (the header's default argument):
it registers no release interest anywhere, so releasing either the local
or the shared quantum issues no notification on account of that call. -/
theorem addUndoActionDefault_no_notification (l r : Bool)
    (uq : UndoQuantum) (a : Nat) (env : UndoEnv) :
    addUndoActionDefault l r uq a env = addUndoAction l r uq a none env ∧
    (addUndoActionDefault l r uq a env).1.interests = uq.interests ∧
    (addUndoActionDefault l r uq a env).2.shared.interests
      = env.shared.interests ∧
    releaseNotifications (addUndoActionDefault l r uq a env).1
      = releaseNotifications uq ∧
    releaseNotifications (addUndoActionDefault l r uq a env).2.shared
      = releaseNotifications env.shared := by
  refine ⟨rfl, ?_, ?_, ?_, ?_⟩ <;> cases r <;> cases l <;>
    simp [addUndoActionDefault, addUndoAction, appendAction,
      releaseNotifications]

/-! ## Engine registry claims -/

/-- Inserting under a key already present leaves the key list unchanged. -/
lemma mapInsert_keys_mem (m : List (Int × EngineLocals)) (key : Int)
    (v : EngineLocals) (h : key ∈ m.map Prod.fst) :
    (mapInsert m key v).map Prod.fst = m.map Prod.fst := by
  induction m with
  | nil => simp at h
  | cons e rest ih =>
      obtain ⟨k0, v0⟩ := e
      by_cases hk : key = k0
      · subst hk
        simp [mapInsert]
      · simp only [List.map_cons, List.mem_cons] at h
        rcases h with h | h
        · exact absurd h hk
        · simp [mapInsert, hk, ih h]

/-- Inserting under a fresh key appends it to the key list. -/
lemma mapInsert_keys_notMem (m : List (Int × EngineLocals)) (key : Int)
    (v : EngineLocals) (h : key ∉ m.map Prod.fst) :
    (mapInsert m key v).map Prod.fst = m.map Prod.fst ++ [key] := by
  induction m with
  | nil => simp [mapInsert]
  | cons e rest ih =>
      obtain ⟨k0, v0⟩ := e
      simp only [List.map_cons, List.mem_cons, not_or] at h
      simp [mapInsert, h.1, ih h.2]

/-- `std::map` insertion keeps the keys duplicate-free. -/
lemma mapInsert_keys_nodup (m : List (Int × EngineLocals)) (key : Int)
    (v : EngineLocals) (h : (m.map Prod.fst).Nodup) :
    ((mapInsert m key v).map Prod.fst).Nodup := by
  by_cases hm : key ∈ m.map Prod.fst
  · rw [mapInsert_keys_mem m key v hm]
    exact h
  · rw [mapInsert_keys_notMem m key v hm]
    rw [List.nodup_append]
    exact ⟨h, List.nodup_singleton key, by simpa using hm⟩

/-- A key not present has no entry. -/
lemma entriesFor_nil_of_notMem (m : List (Int × EngineLocals)) (key : Int)
    (h : key ∉ m.map Prod.fst) : entriesFor m key = [] := by
  induction m with
  | nil => rfl
  | cons e rest ih =>
      obtain ⟨k0, v0⟩ := e
      simp only [List.map_cons, List.mem_cons, not_or] at h
      have hk : ¬ (k0 = key) := fun he => h.1 he.symm
      have hrest := ih h.2
      simp only [entriesFor, List.filter_cons] at hrest ⊢
      simp [hk, hrest]

/-- With duplicate-free keys, any key has at most one entry. -/
lemma entriesFor_len_le (m : List (Int × EngineLocals)) (key : Int)
    (h : (m.map Prod.fst).Nodup) : (entriesFor m key).length ≤ 1 := by
  induction m with
  | nil => simp [entriesFor]
  | cons e rest ih =>
      obtain ⟨k0, v0⟩ := e
      simp at h
      by_cases hk : k0 = key
      · subst hk
        have hz : entriesFor rest k0 = [] :=
          entriesFor_nil_of_notMem rest k0 (by simpa using h.1)
        have hcons : entriesFor ((k0, v0) :: rest) k0
            = (k0, v0) :: entriesFor rest k0 := by
          simp [entriesFor, List.filter_cons]
        rw [hcons, hz]
        simp
      · have hcons : entriesFor ((k0, v0) :: rest) key
            = entriesFor rest key := by
          simp [entriesFor, List.filter_cons, hk]
        rw [hcons]
        exact ih h.2

/-- Inserting under `key` leaves exactly the one inserted entry for
`key`. -/
lemma entriesFor_mapInsert (m : List (Int × EngineLocals)) (key : Int)
    (v : EngineLocals) (h : (m.map Prod.fst).Nodup) :
    entriesFor (mapInsert m key v) key = [(key, v)] := by
  induction m with
  | nil => simp [mapInsert, entriesFor, List.filter_cons]
  | cons e rest ih =>
      obtain ⟨k0, v0⟩ := e
      simp at h
      by_cases hk : key = k0
      · subst hk
        have hz : entriesFor rest key = [] :=
          entriesFor_nil_of_notMem rest key (by simpa using h.1)
        simp [mapInsert, entriesFor, List.filter_cons] at hz ⊢
        exact hz
      · have hk0 : k0 ≠ key := fun he => hk he.symm
        simp [mapInsert, hk, entriesFor, List.filter_cons, hk0] at ih ⊢
        exact ih h.2

/-- Every startup sequence of `init` calls leaves the registry's keys
duplicate-free. -/
lemma applyInits_keys_nodup (calls : List (Int × EngineLocals)) :
    (((applyInits calls).enginesByPartitionId).map Prod.fst).Nodup := by
  suffices h : ∀ st : RegistryState,
      (st.enginesByPartitionId.map Prod.fst).Nodup →
      (((calls.foldl (fun st c => registryInit c.1 c.2 st)
        st).enginesByPartitionId).map Prod.fst).Nodup by
    exact h createdRegistry (by simp [createdRegistry])
  induction calls with
  | nil =>
      intro st h
      exact h
  | cons c rest ih =>
      intro st h
      exact ih _ (mapInsert_keys_nodup _ _ _ h)

/-- C10: after any sequence of `init` calls the registry maps each
partition id to at most one engine context (its key list is
duplicate-free, so a lookup yields at most one entry), and a further
registration under an already-present partition id leaves exactly one
entry for that key rather than two. -/
theorem registry_at_most_one_entry (calls : List (Int × EngineLocals))
    (key : Int) :
    (((applyInits calls).enginesByPartitionId).map Prod.fst).Nodup ∧
    (entriesFor (applyInits calls).enginesByPartitionId key).length ≤ 1 ∧
    (∀ sph : Int, ∀ el : EngineLocals, el.partitionId = key →
      (entriesFor (registryInit sph el
        (applyInits calls)).enginesByPartitionId key).length = 1) := by
  have hnd := applyInits_keys_nodup calls
  refine ⟨hnd, entriesFor_len_le _ _ hnd, ?_⟩
  intro sph el hel
  show (entriesFor (mapInsert (applyInits calls).enginesByPartitionId
    el.partitionId el) key).length = 1
  rw [hel, entriesFor_mapInsert _ _ _ hnd]
  rfl

/-- C10 witness: two sites register under partition ids 5 and 3, then a
second registration arrives under the already-present id 5; the registry
holds exactly one entry for id 5. -/
theorem registry_at_most_one_entry_witness :
    (entriesFor (registryInit 2 ⟨5, 12⟩
      (applyInits [(2, ⟨5, 10⟩), (2, ⟨3, 11⟩)])).enginesByPartitionId
      5).length = 1 :=
  (registry_at_most_one_entry [(2, ⟨5, 10⟩), (2, ⟨3, 11⟩)] 5).2.2 2
    ⟨5, 12⟩ rfl

/-! ## Encapsulation claim -/

/-- C7 counterexample: the header itself refutes the claim that the
section-4 operations are the only reachable surface — line 65 re-opens
`public:` and line 66 declares the static data member
`s_enginesByPartitionId`, state of the core that outside code can reach
directly. -/
theorem onlyOperationsExposed_false : ¬ onlyOperationsExposed := by
  intro h
  have hmem : (⟨"s_enginesByPartitionId", Visibility.vpublic,
      MemberKind.memberData⟩ : ClassMember)
      ∈ synchronizedThreadLockMembers := by
    simp [synchronizedThreadLockMembers]
  have := h _ hmem rfl
  simp [sectionFourOperations] at this

/-- C7 (amended): the public surface of `SynchronizedThreadLock` is the
nine section-4 operations plus the public static data member
`s_enginesByPartitionId`; every other piece of state (`s_inMpContext`,
the mutex, both condition variables, the countdown latch,
`s_SITES_PER_HOST`) is private and unreachable from outside. -/
theorem public_surface_characterization :
    (∀ m ∈ synchronizedThreadLockMembers,
      (m.vis = Visibility.vpublic ↔
        (m.mname ∈ sectionFourOperations ∨
          m.mname = "s_enginesByPartitionId"))) ∧
    (∀ m ∈ synchronizedThreadLockMembers,
      m.kind = MemberKind.memberData →
        m.mname ≠ "s_enginesByPartitionId" →
          m.vis = Visibility.vprivate) := by
  constructor <;> decide

/-- C7 witness: the characterization applied to the private latch member
and to the public registry member. -/
theorem public_surface_characterization_witness :
    ((⟨"s_globalTxnStartCountdownLatch", Visibility.vprivate,
        MemberKind.memberData⟩ : ClassMember).vis = Visibility.vpublic ↔
      ((⟨"s_globalTxnStartCountdownLatch", Visibility.vprivate,
          MemberKind.memberData⟩ : ClassMember).mname
          ∈ sectionFourOperations ∨
        (⟨"s_globalTxnStartCountdownLatch", Visibility.vprivate,
          MemberKind.memberData⟩ : ClassMember).mname
          = "s_enginesByPartitionId")) :=
  public_surface_characterization.1
    ⟨"s_globalTxnStartCountdownLatch", Visibility.vprivate,
      MemberKind.memberData⟩ (by decide)

end VoltDB
